import Mathlib

/-!
# Verification of the MM0 language-server core against its specification

This file shallowly embeds the Rust sources of the repository
(`src/mm0-rs/src/mmc/types/mod.rs`, `src/mm0-rs/src/mmc/types/mir.rs`,
`src/mm0-rs/src/server.rs`) as Lean definitions, and proves (or refutes)
the specification claims about them.

Conventions used throughout the embedding:
* Rust `BigInt` becomes `Int`; machine-width checks (`u8::try_from` etc.)
  become explicit range conditions, and bit-masking by `2^w - 1` becomes
  `% 2^w`, which is the same function on two's-complement big integers.
* Fallible operations (`Option`) become `Option`; a Rust `panic!` arm in a
  function that otherwise returns a value is modelled by `none` of the same
  `Option` type (each such spot is marked by a comment); the claims under
  study never touch the panicking inputs.
* Mutating methods become functions returning the new value of `self`
  (together with the value the method returns, when there is one).
* External identifier types (`AtomId`, `TermId`, `TyVarId`, `LispVal`,
  `Lifetime`), which come from crates or modules outside the provided
  sources, are embedded as opaque numeric tokens: the code under study only
  moves them around.
-/

namespace MM0

/-! ## External identifier types (opaque tokens) -/

/-- `AtomId`: external interned-atom identifier (u32 in the environment). -/
abbrev AtomId := Nat

/-- `TermId`: external term identifier. -/
abbrev TermId := Nat

/-- `TyVarId`: type-variable identifier, from the (absent) `ast` module. -/
abbrev TyVarId := Nat

/-- `LispVal`: external lisp value, abstracted to a token. -/
abbrev LispVal := Nat

/-- `Lifetime`: lifetime annotation, from the (absent) `ty` module;
abstracted to a token. -/
abbrev Lifetime := Nat

/-! ## `mmc/types/mod.rs`: sizes, integral types, operators -/

/-- `Size`: possible sizes for integer operations and types
(`mod.rs` lines 139-153). -/
inductive Size where
  | s8
  | s16
  | s32
  | s64
  | inf
deriving DecidableEq, Repr

/-- The variant index of a `Size`, used to embed the Rust `derive(PartialOrd,
Ord)` instance, which orders variants by declaration order
(`S8 < S16 < S32 < S64 < Inf`). -/
def Size.idx : Size → Nat
  | .s8 => 0
  | .s16 => 1
  | .s32 => 2
  | .s64 => 3
  | .inf => 4

/-- The derived `<=` on `Size`. -/
def Size.le (a b : Size) : Bool := a.idx ≤ b.idx

/-- The derived `<` on `Size`. -/
def Size.lt (a b : Size) : Bool := a.idx < b.idx

/-- `Size::bits`: the number of bits of this size, or `None` for `Inf`
(`mod.rs` lines 162-170). -/
def Size.bits : Size → Option Nat
  | .inf => none
  | .s8 => some 8
  | .s16 => some 16
  | .s32 => some 32
  | .s64 => some 64

/-- `IntTy`: the set of integral types (`mod.rs` lines 188-193). -/
inductive IntTy where
  | int (sz : Size)
  | uint (sz : Size)
deriving DecidableEq, Repr

/-- `IntTy::contains` (`mod.rs` lines 225-238): whether `n` is a valid member
of this integral type.  `iN::try_from(n).is_ok()` is the signed range check,
`uN::try_from(n).is_ok()` the unsigned one, and `!n.is_negative()` is
`0 ≤ n`. -/
def IntTy.contains : IntTy → Int → Bool
  | .int .inf, _ => true
  | .int .s8, n => decide (-128 ≤ n ∧ n < 128)
  | .int .s16, n => decide (-32768 ≤ n ∧ n < 32768)
  | .int .s32, n => decide (-2147483648 ≤ n ∧ n < 2147483648)
  | .int .s64, n => decide (-9223372036854775808 ≤ n ∧ n < 9223372036854775808)
  | .uint .inf, n => decide (0 ≤ n)
  | .uint .s8, n => decide (0 ≤ n ∧ n < 256)
  | .uint .s16, n => decide (0 ≤ n ∧ n < 65536)
  | .uint .s32, n => decide (0 ≤ n ∧ n < 4294967296)
  | .uint .s64, n => decide (0 ≤ n ∧ n < 18446744073709551616)

/-- The `le` method of `impl PartialOrd for IntTy` (`mod.rs` lines 243-250). -/
def IntTy.le : IntTy → IntTy → Bool
  | .int sz1, .int sz2 => sz1.le sz2
  | .uint sz1, .uint sz2 => sz1.le sz2
  | .int _, .uint _ => false
  | .uint sz1, .int sz2 => sz1.lt sz2

/-- `Unop`: elaborated unary operations (`mod.rs` lines 267-281). -/
inductive Unop where
  | neg
  | not
  | bitNot (sz : Size)
  | as (ity : IntTy)
deriving DecidableEq, Repr

/-- The `truncate_signed!` macro arm of `Unop::apply_int` (`mod.rs` lines
320-323), with `half = 2^(bits-1)` and `full = 2^bits`: if `n` fits the
signed range it is returned unchanged (`Cow::Borrowed`); otherwise `n` is
masked to the low `bits` bits (`n & uN::MAX`, i.e. `n % full`, nonnegative)
and reinterpreted as a signed integer (`as iN`). -/
def truncateSigned (half full n : Int) : Int :=
  if -half ≤ n ∧ n < half then n
  else
    let m := n % full
    if m < half then m else m - full

/-- The `truncate_unsigned!` macro arm of `Unop::apply_int` (`mod.rs` lines
324-327), with `full = 2^bits`: if `n` fits the unsigned range it is
returned unchanged, otherwise it is masked to the low bits
(`n & uN::MAX = n % full`). -/
def truncateUnsigned (full n : Int) : Int :=
  if 0 ≤ n ∧ n < full then n else n % full

/-- `Unop::apply_int` (`mod.rs` lines 319-347).  `BitNot` at a finite size
first converts to the unsigned type (`None` if out of range) and then
complements (`!x = 2^bits - 1 - x` on `uN`); `BitNot(Inf)` is big-integer
complement `!n = -n - 1`.  `As(UInt(Inf))` panics in the source; it is
modelled as `none` and excluded by the claims. -/
def Unop.apply_int : Unop → Int → Option Int
  | .neg, n => some (-n)
  | .not, _ => none
  | .bitNot .inf, n => some (-n - 1)
  | .bitNot .s8, n => if 0 ≤ n ∧ n < 256 then some (255 - n) else none
  | .bitNot .s16, n => if 0 ≤ n ∧ n < 65536 then some (65535 - n) else none
  | .bitNot .s32, n => if 0 ≤ n ∧ n < 4294967296 then some (4294967295 - n) else none
  | .bitNot .s64, n =>
    if 0 ≤ n ∧ n < 18446744073709551616 then some (18446744073709551615 - n) else none
  | .as (.int .inf), n => some n
  | .as (.int .s8), n => some (truncateSigned 128 256 n)
  | .as (.int .s16), n => some (truncateSigned 32768 65536 n)
  | .as (.int .s32), n => some (truncateSigned 2147483648 4294967296 n)
  | .as (.int .s64), n =>
    some (truncateSigned 9223372036854775808 18446744073709551616 n)
  | .as (.uint .inf), _ => none
  | .as (.uint .s8), n => some (truncateUnsigned 256 n)
  | .as (.uint .s16), n => some (truncateUnsigned 65536 n)
  | .as (.uint .s32), n => some (truncateUnsigned 4294967296 n)
  | .as (.uint .s64), n => some (truncateUnsigned 18446744073709551616 n)

/-- `Binop`: elaborated binary operations (`mod.rs` lines 382-415). -/
inductive Binop where
  | add
  | mul
  | sub
  | max
  | min
  | and
  | or
  | bitAnd
  | bitOr
  | bitXor
  | shl
  | shr
  | lt
  | le
  | eq
  | ne
deriving DecidableEq, Repr

/-- `Binop::preserves_nat` (`mod.rs` lines 454-464).  The comparison and
boolean operators panic ("not an int -> int binop"); the panic is modelled
as `none`. -/
def Binop.preserves_nat : Binop → Option Bool
  | .add | .mul | .max | .min | .bitAnd | .bitOr | .bitXor | .shl | .shr => some true
  | .sub => some false
  | .lt | .le | .eq | .ne | .and | .or => none

/-- `Binop::apply_int_int` (`mod.rs` lines 481-496).  BigInt `&`, `|`, `^`
are the two's-complement bitwise operations `Int.land`, `Int.lor`,
`Int.xor`; `usize::try_from(n2)` succeeds exactly on `0 ≤ n2 < 2^64`
(64-bit host), and BigInt `<<`/`>>` by `k` are `* 2^k` and
floor division by `2^k`. -/
def Binop.apply_int_int : Binop → Int → Int → Option Int
  | .add, n1, n2 => some (n1 + n2)
  | .mul, n1, n2 => some (n1 * n2)
  | .sub, n1, n2 => some (n1 - n2)
  | .max, n1, n2 => some (Max.max n1 n2)
  | .min, n1, n2 => some (Min.min n1 n2)
  | .bitAnd, n1, n2 => some (Int.land n1 n2)
  | .bitOr, n1, n2 => some (Int.lor n1 n2)
  | .bitXor, n1, n2 => some (Int.xor n1 n2)
  | .shl, n1, n2 =>
    if 0 ≤ n2 ∧ n2 < 18446744073709551616 then some (n1 * 2 ^ n2.toNat) else none
  | .shr, n1, n2 =>
    if 0 ≤ n2 ∧ n2 < 18446744073709551616 then some (n1 / 2 ^ n2.toNat) else none
  | .lt, _, _ | .le, _, _ | .eq, _, _ | .ne, _, _ | .and, _, _ | .or, _, _ => none

/-! ## `mmc/types/mir.rs`: expression and type trees -/

/-- `VarId` (`mir.rs` lines 13-14, same shape as the HIR `VarId` of
`mod.rs` lines 20-21): an opaque 32-bit identifier. -/
structure VarId where
  n : Nat
deriving DecidableEq, Repr

/-- `ArgAttr` (`mir.rs` lines 27-48): a bit set over
`{NONDEP, EXISTENTIAL, SINGLETON, GHOST}`. -/
structure ArgAttr where
  nondep : Bool
  existential : Bool
  singleton : Bool
  ghost : Bool
deriving DecidableEq, Repr

/-- `Mm0ExprNode` (`mod.rs` lines 558-567): an embedded MM0 expression with
explicit free-variable indices. -/
inductive Mm0ExprNode where
  | const (e : LispVal)
  | var (i : Nat)
  | expr (t : TermId) (es : List Mm0ExprNode)
deriving Repr

mutual
/-- `TyKind` (`mir.rs` lines 86-171), with `Rc` sharing collapsed to plain
subtrees (equality in the source is structural) and `Box<[..]>` as `List`.
An `Arg` (`mir.rs` lines 58-65) appears inlined in `struct` as an
`(attr, var, ty)` triple.  The Rust variant `If` is renamed `ite`
(`if` is a Lean keyword). -/
inductive TyKind where
  | unit
  | true
  | false
  | bool
  | var (v : TyVarId)
  | int (ity : IntTy)
  | array (ty : TyKind) (n : ExprKind)
  | own (ty : TyKind)
  | ref (lft : Lifetime) (ty : TyKind)
  | refSn (e : ExprKind)
  | sn (a : ExprKind) (ty : TyKind)
  | struct (args : List (ArgAttr × VarId × TyKind))
  | all (v : VarId) (pat ty : TyKind)
  | imp (p q : TyKind)
  | wand (p q : TyKind)
  | not (p : TyKind)
  | and (ps : List TyKind)
  | or (ps : List TyKind)
  | ite (c : ExprKind) (t e : TyKind)
  | ghost (ty : TyKind)
  | uninit (ty : TyKind)
  | pure (e : ExprKind)
  | user (f : AtomId) (tys : List TyKind) (es : List ExprKind)
  | heap (e v : ExprKind) (ty : TyKind)
  | hasTy (e : ExprKind) (ty : TyKind)
  | input
  | output
  | moved (ty : TyKind)

/-- `ExprKind` (`mir.rs` lines 238-296), with `Rc` collapsed and `Box<[..]>`
as `List`.  `Mm0Expr` (`mod.rs` lines 600-606, instantiated at `T = Expr`
in `mir.rs` line 79) appears inlined in `mm0` as its `subst` list plus root
node.  The Rust variant `If` is renamed `ite`. -/
inductive ExprKind where
  | unit
  | var (v : VarId)
  | const (c : AtomId)
  | bool (b : Bool)
  | int (n : Int)
  | unop (op : Unop) (e : ExprKind)
  | binop (op : Binop) (e1 e2 : ExprKind)
  | index (a i : ExprKind)
  | slice (a i l : ExprKind)
  | proj (a : ExprKind) (i : Nat)
  | updateIndex (a i v : ExprKind)
  | updateSlice (a i l v : ExprKind)
  | updateProj (a : ExprKind) (i : Nat) (v : ExprKind)
  | list (es : List ExprKind)
  | array (es : List ExprKind)
  | sizeof (ty : TyKind)
  | ref (e : ExprKind)
  | mm0 (subst : List ExprKind) (e : Mm0ExprNode)
  | call (f : AtomId) (tys : List TyKind) (args : List ExprKind)
  | ite (cond t e : ExprKind)
end

/-- `Ty = Rc<TyKind>` (`mir.rs` line 82). -/
abbrev Ty := TyKind

/-- `Expr = Rc<ExprKind>` (`mir.rs` line 230). -/
abbrev Expr := ExprKind

/-- `ExprTy = (Option<Expr>, Ty)` (`mir.rs` line 234). -/
abbrev ExprTy := Option Expr × Ty

/-! ## `mmc/types/mir.rs`: the context tree -/

/-- `CtxBufId` (`mir.rs` lines 462-468): an index into the `Contexts`
vector; `ROOT = 0`. -/
structure CtxBufId where
  n : Nat
deriving DecidableEq, Repr

/-- `CtxBufId::ROOT`. -/
def CtxBufId.ROOT : CtxBufId := ⟨0⟩

/-- `CtxId` (`mir.rs` lines 470-480): a context buffer id plus an index into
that buffer. -/
structure CtxId where
  buf : CtxBufId
  i : Nat
deriving DecidableEq, Repr

/-- `CtxId::ROOT`: the empty context. -/
def CtxId.ROOT : CtxId := ⟨CtxBufId.ROOT, 0⟩

/-- `CtxBuf` (`mir.rs` lines 482-489). -/
structure CtxBuf where
  parent : CtxId
  vars : List (VarId × ExprTy)

/-- The `Default` instance for `CtxBuf` (derived in the source): zero parent
id, empty variable list. -/
instance : Inhabited CtxBuf := ⟨⟨CtxId.ROOT, []⟩⟩

/-- `Contexts` (`mir.rs` lines 344-348): a vector of context buffers.
Buffer 0 is the root and is its own parent. -/
structure Contexts where
  bufs : List CtxBuf

/-- The `Default` instance for `Contexts` (`mir.rs` lines 362-364):
`vec![CtxBuf::default()]`. -/
def Contexts.dflt : Contexts := ⟨[default]⟩

/-- The buffer at index `b` (the `Index<CtxBufId>` impl, `mir.rs` lines
355-358).  Out-of-range access panics in the source; here it returns the
default buffer (the claims only access in-range indices). -/
def Contexts.buf (c : Contexts) (b : Nat) : CtxBuf := c.bufs.getD b default

/-- `Contexts::extend` (`mir.rs` lines 384-387) combined with
`Contexts::unshare` (lines 369-381), returning the updated `Contexts`
together with the `CtxId` that `extend` returns.  `unshare` compares the
buffer's length with `id.1`: on equality it returns the buffer in place
(and leaves `ctx` untouched, so `extend` hands back the *incoming* id);
otherwise it pushes a fresh buffer `{parent: id, vars: []}` and rewrites
`ctx` to `(new_buffer, 1)`.  In both cases `extend` then pushes
`(var, ty)` onto the returned buffer. -/
def Contexts.extend (c : Contexts) (id : CtxId) (var : VarId) (ty : ExprTy) :
    Contexts × CtxId :=
  let buf := c.buf id.buf.n
  if buf.vars.length = id.i then
    (⟨c.bufs.set id.buf.n { buf with vars := buf.vars ++ [(var, ty)] }⟩, id)
  else
    (⟨c.bufs ++ [{ parent := id, vars := [(var, ty)] }]⟩, ⟨⟨c.bufs.length⟩, 1⟩)

/-- One step of `CtxIter::next` (`mir.rs` lines 405-414), iterated to a
list: the iterator drains `buf.vars[..i]` back to front, then stops if the
buffer is `ROOT`, and otherwise restarts at the buffer's parent id.  The
source loop has no termination guarantee on ill-formed contexts, so the
embedding carries explicit fuel; `Contexts.rev_iter` supplies fuel
`id.buf.n + 1`, which is enough whenever parent indices strictly
decrease. -/
def Contexts.revIterAux (c : Contexts) : Nat → CtxId → List (VarId × ExprTy)
  | 0, _ => []
  | fuel + 1, id =>
    ((c.buf id.buf.n).vars.take id.i).reverse ++
      (if id.buf.n = 0 then [] else c.revIterAux fuel (c.buf id.buf.n).parent)

/-- `Contexts::rev_iter` (`mir.rs` lines 392-394), as the list of items the
returned iterator yields. -/
def Contexts.rev_iter (c : Contexts) (id : CtxId) : List (VarId × ExprTy) :=
  c.revIterAux (id.buf.n + 1) id

/-- The logical context denoted by a context id `(b, i)`, in order (oldest
variable first): the variables of the parent context, then the first `i`
variables of buffer `b`.  The recursion stops at the root (buffer 0) and,
to stay total, also at any ill-formed parent link that does not decrease
the buffer index; on well-formed contexts this agrees with the
documentation of `CtxId` (`mir.rs` lines 470-474). -/
def Contexts.ctxVars (c : Contexts) (b i : Nat) : List (VarId × ExprTy) :=
  (if _h : (c.buf b).parent.buf.n < b then
    c.ctxVars (c.buf b).parent.buf.n (c.buf b).parent.i
  else []) ++ (c.buf b).vars.take i
termination_by b

/-- Well-formedness of a context collection: every non-root buffer's parent
has a strictly smaller buffer index, and every parent index is at most the
parent buffer's length. -/
def Contexts.WF (c : Contexts) : Prop :=
  ∀ b, b < c.bufs.length →
    (b ≠ 0 → (c.buf b).parent.buf.n < b) ∧
      (c.buf b).parent.i ≤ (c.buf (c.buf b).parent.buf.n).vars.length

instance (c : Contexts) : Decidable c.WF := by
  unfold Contexts.WF; infer_instance

/-! ## `server.rs`: jobs, the virtual file system, request handling -/

/-- `Arc<PathBuf>`: a canonical file path.  Paths are only created, compared
and stored, so a string suffices. -/
abbrev Path := String

/-- `lsp_types::Position` (external): `Position::new(line, character)`. -/
structure Position where
  line : Nat
  character : Nat
deriving DecidableEq, Repr

/-- `Job` (`server.rs` lines 55-58). -/
inductive Job where
  | elaborate (path : Path) (start : Position)
  | depChange (path : Path)
deriving DecidableEq, Repr

/-- `Job::path` (`server.rs` lines 61-66). -/
def Job.path : Job → Path
  | .elaborate p _ => p
  | .depChange p => p

/-- `Jobs::extend` (`server.rs` lines 72-81), acting on the guarded state
`Option<VecDeque<Job>>` of `Jobs` (line 69): `none` is a stopped queue.
`retain` keeps exactly the pending jobs whose path differs from every path
in the new batch, then the batch is appended.  (The mutex and the condvar
notification have no effect on the queue contents.) -/
def Jobs.extend (st : Option (List Job)) (new : List Job) : Option (List Job) :=
  if new.isEmpty then st
  else
    match st with
    | none => none
    | some jobs =>
      some ((jobs.filter fun job => new.all fun njob => decide (njob.path ≠ job.path)) ++ new)

/-- `AST`: output of the external parser (`crate::parser`), abstracted to a
token. -/
abbrev AST := Nat

/-- `Environment` (`server.rs` line 143): a unit struct in this source. -/
inductive Environment where
  | mk
deriving DecidableEq, Repr

/-- `FileCache` (`server.rs` lines 150-157). -/
inductive FileCache where
  | dirty (ast : AST)
  | ready (ast : AST) (env : Environment) (deps : List Path)
deriving DecidableEq, Repr

/-- `VirtualFile` (`server.rs` lines 159-170): `saved`/`text` are the two
components of the `text` mutex, `downstream` is the set of files that
depend on this one (`HashSet` as a list).  The cached `url` and the condvar
are omitted: no claim touches them. -/
structure VirtualFile where
  saved : Bool
  text : String
  parsed : Option FileCache
  downstream : List Path
deriving DecidableEq, Repr

/-- `VirtualFile::new` (`server.rs` lines 173-181): saved flag `true`, no
parse, no downstream. -/
def VirtualFile.new (text : String) : VirtualFile := ⟨true, text, none, []⟩

/-- `VFS` (`server.rs` line 184): a map from path to virtual file, as an
association list with at most one entry per path. -/
abbrev VFS := List (Path × VirtualFile)

/-- Map lookup (`VFS::get`, `server.rs` lines 187-189). -/
def VFS.find : VFS → Path → Option VirtualFile
  | [], _ => none
  | e :: v, p => if e.1 = p then some e.2 else VFS.find v p

/-- Replacing the file stored at a present key. -/
def VFS.update (v : VFS) (p : Path) (f : VirtualFile) : VFS :=
  v.map fun e => if e.1 = p then (p, f) else e

/-- Inserting at a vacant key (`Entry::Vacant(entry) => entry.insert(file)`). -/
def VFS.insert (v : VFS) (p : Path) (f : VirtualFile) : VFS := (p, f) :: v

/-- Removing a key (`HashMap::remove`). -/
def VFS.erase (v : VFS) (p : Path) : VFS := v.filter fun e => decide (e.1 ≠ p)

/-- The cache transition performed by `VFS::dirty` (`server.rs` lines
242-248): `take()` then restore, turning `Ready` into `Dirty` (keeping the
AST, dropping env and deps) and leaving `None`/`Dirty` as they are. -/
def FileCache.dirtyFlip : Option FileCache → Option FileCache
  | none => none
  | some (.ready ast _ _) => some (.dirty ast)
  | some (.dirty ast) => some (.dirty ast)

/-- `VFS::dirty` (`server.rs` lines 238-253): push a `DepChange` job for the
path, flip the file's cache to `Dirty`, then recurse into a clone of the
file's downstream set.  The source recursion is unbounded (it would loop on
a cyclic dependency graph), so the embedding carries explicit fuel; the
`none` branch of the lookup models the source's `unwrap` panic by leaving
the state unchanged after the push. -/
def VFS.dirty (fuel : Nat) (v : VFS) (queue : List Job) (p : Path) :
    VFS × List Job :=
  match fuel with
  | 0 => (v, queue)
  | fuel + 1 =>
    let queue := queue ++ [Job.depChange p]
    match v.find p with
    | none => (v, queue)
    | some file =>
      let v := v.update p { file with parsed := FileCache.dirtyFlip file.parsed }
      file.downstream.foldl (fun vq dep => VFS.dirty fuel vq.1 vq.2 dep) (v, queue)

/-- `VFS::open_virt` (`server.rs` lines 191-203): push an `Elaborate` job at
position `(0, 0)`, build a fresh file from the given text, then: if the
path is occupied, dirty every downstream file of the *stored* entry and
return the fresh file (the map itself is not written!); if the path is
vacant, insert and return the fresh file. -/
def VFS.open_virt (fuel : Nat) (v : VFS) (queue : List Job) (p : Path)
    (text : String) : VFS × List Job × VirtualFile :=
  let queue := queue ++ [Job.elaborate p ⟨0, 0⟩]
  let file := VirtualFile.new text
  match v.find p with
  | some old =>
    let vq := old.downstream.foldl (fun vq dep => VFS.dirty fuel vq.1 vq.2 dep) (v, queue)
    (vq.1, vq.2, file)
  | none => (v.insert p file, queue, file)

/-- `VFS::close` (`server.rs` lines 205-214): remove the file; if its copy
was unsaved, dirty every downstream file. -/
def VFS.close (fuel : Nat) (v : VFS) (queue : List Job) (p : Path) :
    VFS × List Job :=
  match v.find p with
  | none => (v, queue)
  | some file =>
    let v := v.erase p
    if file.saved then (v, queue)
    else file.downstream.foldl (fun vq dep => VFS.dirty fuel vq.1 vq.2 dep) (v, queue)

/-- `VFS::set_downstream` (`server.rs` lines 216-222): add or remove the
edge `from → to` in `from`'s downstream set.  The source `unwrap`s the
lookup; an absent `from` leaves the map unchanged here. -/
def VFS.set_downstream (v : VFS) (fr dst : Path) (val : Bool) : VFS :=
  match v.find fr with
  | none => v
  | some file =>
    v.update fr
      { file with
        downstream :=
          if val then
            if dst ∈ file.downstream then file.downstream else file.downstream ++ [dst]
          else file.downstream.filter fun d => decide (d ≠ dst) }

/-- The `textDocument/didChange` handler's effect on the VFS (`server.rs`
lines 426-439): look the file up, set the saved flag to `true`, and replace
the text with the result of `apply_changes` (external; the new text is an
arbitrary string here). -/
def VFS.didChange (v : VFS) (p : Path) (newText : String) : VFS :=
  match v.find p with
  | none => v
  | some file => v.update p { file with saved := true, text := newText }

/-- The worker's cache write-back (`server.rs` lines 95-105 and 111-120):
`file.parsed` is overwritten (with `None` by the initial `take()`, with
`Some(Ready{..})` at the end). -/
def VFS.setParsed (v : VFS) (p : Path) (pc : Option FileCache) : VFS :=
  match v.find p with
  | none => v
  | some file => v.update p { file with parsed := pc }

/-- The VFS states reachable through the operations the server actually
performs on its map: the initial empty map (`Server::new`, line 370),
`didOpen` (`open_virt`), `didChange`, `didClose` (`close`), the worker's
dependency-edge updates (`set_downstream`, via `update_downstream`) and
cache write-backs, and `dirty` steps. -/
inductive Reachable : VFS → Prop where
  | init : Reachable []
  | openVirt (fuel v queue p t) : Reachable v →
      Reachable (VFS.open_virt fuel v queue p t).1
  | change (v p t) : Reachable v → Reachable (VFS.didChange v p t)
  | close (fuel v queue p) : Reachable v → Reachable (VFS.close fuel v queue p).1
  | setDs (v fr dst val) : Reachable v → Reachable (VFS.set_downstream v fr dst val)
  | setParsed (v p pc) : Reachable v → Reachable (VFS.setParsed v p pc)
  | dirtyStep (fuel v queue p) : Reachable v → Reachable (VFS.dirty fuel v queue p).1

/-- `RequestId` (external `lsp_server` type), abstracted to a token. -/
abbrev RequestId := Nat

/-- A fragment of `serde_json::Value`, enough to state what the handlers
serialize; `to_value(())` is `null`. -/
inductive SJson where
  | null
  | bool (b : Bool)
  | num (n : Int)
  | str (s : String)
deriving DecidableEq, Repr

/-- `lsp_server::ResponseError` (external), abstracted to its shape. -/
structure ResponseError where
  code : Int
  message : String
deriving DecidableEq, Repr

/-- `lsp_server::Response` (external): id, optional result, optional
error. -/
structure Response where
  id : RequestId
  result : Option SJson
  error : Option ResponseError
deriving DecidableEq, Repr

/-- `OpenRequests` (`server.rs` line 309): the map from request id to
cancellation flag, as an association list (one entry per id); the `Bool` is
the value of the `AtomicBool`. -/
abbrev OpenRequests := List (RequestId × Bool)

/-- `RequestHandler::finish` (`server.rs` lines 333-340): remove the
request's id from the open-request map, then send a `Response`: on `Ok`
with `result = Some(to_value(val))` and no error, on `Err` with no result
and the given error.  The sent message is returned. -/
def RequestHandler.finish (reqs : OpenRequests) (id : RequestId)
    (resp : Except ResponseError SJson) : OpenRequests × Response :=
  (reqs.filter fun e => decide (e.1 ≠ id),
    match resp with
    | .ok val => ⟨id, some val, none⟩
    | .error e => ⟨id, none, some e⟩)

/-- `RequestHandler::handle` (`server.rs` lines 325-331): every request
(including a cancelled one) currently falls through the empty match and
finishes with `Ok(())`, whose serialization is `null`. -/
def RequestHandler.handle (reqs : OpenRequests) (id : RequestId) :
    OpenRequests × Response :=
  RequestHandler.finish reqs id (.ok .null)

/-! ## Claim C7: `BitNot` semantics -/

/-- The shape shared by the four finite-size `BitNot` arms of
`Unop::apply_int`: in range, complement; out of range, `none`. -/
theorem bitNot_finite_spec (n : Nat) (B : Int) (hB : B = 2 ^ n) (x : Int)
    (f : Option Int) (hf : f = if 0 ≤ x ∧ x < B then some (B - 1 - x) else none) :
    ((0 ≤ x ∧ x < 2 ^ n) → f = some (2 ^ n - x - 1)) ∧
      (¬(0 ≤ x ∧ x < 2 ^ n) → f = none) := by
  subst hB; subst hf
  constructor <;> intro h
  · rw [if_pos h]; congr 1; ring
  · rw [if_neg h]

/-- **C7.** For every `x`: `BitNot` at a finite size of `n` bits returns
`some (2^n - x - 1)` when `x` is in the unsigned `n`-bit range and `none`
when it is out of that range; `BitNot(Inf)` returns `some (-x - 1)`; in
particular `BitNot(S8).apply_int(0x12) = some 0xED` and
`BitNot(Inf).apply_int(-1) = some 0`. -/
theorem claim_C7_bitnot :
    (∀ (x : Int) (sz : Size) (n : Nat), sz.bits = some n →
      ((0 ≤ x ∧ x < 2 ^ n) →
        Unop.apply_int (.bitNot sz) x = some (2 ^ n - x - 1)) ∧
      (¬(0 ≤ x ∧ x < 2 ^ n) → Unop.apply_int (.bitNot sz) x = none)) ∧
    (∀ x : Int, Unop.apply_int (.bitNot .inf) x = some (-x - 1)) ∧
    Unop.apply_int (.bitNot .s8) 0x12 = some 0xED ∧
    Unop.apply_int (.bitNot .inf) (-1) = some 0 := by
  refine ⟨?_, fun x => rfl, by decide, by decide⟩
  intro x sz n hbits
  cases sz <;> simp only [Size.bits, Option.some.injEq, reduceCtorEq] at hbits <;> subst hbits
  · exact bitNot_finite_spec 8 256 (by norm_num) x _ (by norm_num [Unop.apply_int])
  · exact bitNot_finite_spec 16 65536 (by norm_num) x _ (by norm_num [Unop.apply_int])
  · exact bitNot_finite_spec 32 4294967296 (by norm_num) x _
      (by norm_num [Unop.apply_int])
  · exact bitNot_finite_spec 64 18446744073709551616 (by norm_num) x _
      (by norm_num [Unop.apply_int])

/-- Witness for C7: `BitNot(S16)` on `3` via the general theorem. -/
theorem claim_C7_witness :
    Size.bits .s16 = some 16 ∧ (0 ≤ (3 : Int) ∧ (3 : Int) < 2 ^ 16) ∧
      Unop.apply_int (.bitNot .s16) 3 = some (2 ^ 16 - 3 - 1) :=
  ⟨rfl, by norm_num,
    (claim_C7_bitnot.1 3 .s16 16 rfl).1 (by norm_num)⟩

/-! ## Claim C3: `As` fixes exactly the members of the target type -/

/-- **C3.** For every `n : BigInt` and integral type `T` other than
`UInt(Inf)` (whose `As` panics), `T.contains(n)` holds iff
`Unop::As(T).apply_int(n)` returns `some n`. -/
theorem claim_C3_as_roundtrip (n : Int) (T : IntTy) (hT : T ≠ .uint .inf) :
    IntTy.contains T n = true ↔ Unop.apply_int (.as T) n = some n := by
  rcases T with sz | sz <;> rcases sz <;>
    first
      | exact absurd rfl hT
      | (simp only [IntTy.contains, Unop.apply_int, truncateSigned, truncateUnsigned,
          decide_eq_true_eq, Option.some.injEq]
         split_ifs <;> omega)
      | simp [IntTy.contains, Unop.apply_int]

/-- Witness for C3: `i8` contains `5`, and `As(i8)` fixes `5`. -/
theorem claim_C3_witness :
    (IntTy.int .s8 ≠ IntTy.uint .inf) ∧
      (IntTy.contains (.int .s8) 5 = true ↔
        Unop.apply_int (.as (.int .s8)) 5 = some 5) :=
  ⟨by decide, claim_C3_as_roundtrip 5 (.int .s8) (by decide)⟩

/-! ## Claim C6: nat preservation of the integer binops -/

/-- **C6.** For the nine operators `Add, Mul, Max, Min, BitAnd, BitOr,
BitXor, Shl, Shr` and nonnegative inputs, any `some` result of
`apply_int_int` is nonnegative; `preserves_nat` returns `true` exactly for
those nine and `false` for `Sub` (the remaining operators panic, modelled
as `none`). -/
theorem claim_C6_nat_preservation :
    (∀ b : Binop,
      (b = .add ∨ b = .mul ∨ b = .max ∨ b = .min ∨ b = .bitAnd ∨ b = .bitOr ∨
        b = .bitXor ∨ b = .shl ∨ b = .shr) →
      ∀ n1 n2 r : Int, 0 ≤ n1 → 0 ≤ n2 → b.apply_int_int n1 n2 = some r → 0 ≤ r) ∧
    (∀ b : Binop,
      b.preserves_nat = some true ↔
        (b = .add ∨ b = .mul ∨ b = .max ∨ b = .min ∨ b = .bitAnd ∨ b = .bitOr ∨
          b = .bitXor ∨ b = .shl ∨ b = .shr)) ∧
    Binop.preserves_nat .sub = some false := by
  refine ⟨?_, fun b => by cases b <;> simp [Binop.preserves_nat], rfl⟩
  intro b hb n1 n2 r h1 h2 happ
  obtain ⟨a, rfl⟩ := Int.eq_ofNat_of_zero_le h1
  obtain ⟨c, rfl⟩ := Int.eq_ofNat_of_zero_le h2
  rcases hb with rfl | rfl | rfl | rfl | rfl | rfl | rfl | rfl | rfl <;>
    simp only [Binop.apply_int_int, Option.some.injEq] at happ
  · omega
  · subst happ; positivity
  · subst happ; exact le_max_of_le_left (by positivity)
  · subst happ; exact le_min (by positivity) (by positivity)
  · have : Int.land (a : Int) (c : Int) = ((a &&& c : Nat) : Int) := rfl
    rw [this] at happ; omega
  · have : Int.lor (a : Int) (c : Int) = ((a ||| c : Nat) : Int) := rfl
    rw [this] at happ; omega
  · have : Int.xor (a : Int) (c : Int) = ((a ^^^ c : Nat) : Int) := rfl
    rw [this] at happ; omega
  · split at happ
    · simp only [Option.some.injEq] at happ; subst happ; positivity
    · simp at happ
  · split at happ
    · simp only [Option.some.injEq] at happ; subst happ
      exact Int.ediv_nonneg h1 (by positivity)
    · simp at happ

/-- Witness for C6: `Add` on `1` and `2`. -/
theorem claim_C6_witness :
    Binop.apply_int_int .add 1 2 = some 3 ∧ 0 ≤ (3 : Int) :=
  ⟨by decide,
    claim_C6_nat_preservation.1 .add (Or.inl rfl) 1 2 3 (by decide) (by decide)
      (by decide)⟩

/-! ## Claim C2: the `IntTy` partial order versus value-set inclusion -/

/-- `le` implies value-set inclusion (this direction holds for all pairs). -/
theorem intTy_le_subset (T1 T2 : IntTy) (n : Int) (hle : IntTy.le T1 T2 = true)
    (h1 : IntTy.contains T1 n = true) : IntTy.contains T2 n = true := by
  rcases T1 with s1 | s1 <;> rcases s1 <;> rcases T2 with s2 | s2 <;> rcases s2 <;>
    first
      | rfl
      | exact absurd hle (by decide)
      | (simp only [IntTy.contains, decide_eq_true_eq] at h1 ⊢; omega)

/-- Value-set inclusion implies `le`, for every pair except
`(UInt(Inf), Int(Inf))`. -/
theorem intTy_subset_le (T1 T2 : IntTy)
    (hne : ¬(T1 = .uint .inf ∧ T2 = .int .inf))
    (hsub : ∀ n : Int, IntTy.contains T1 n = true → IntTy.contains T2 n = true) :
    IntTy.le T1 T2 = true := by
  rcases T1 with s1 | s1 <;> rcases s1 <;> rcases T2 with s2 | s2 <;> rcases s2 <;>
    first
      | rfl
      | (refine absurd ⟨?_, ?_⟩ hne <;> rfl)
      | exact absurd (hsub (-1) (by decide)) (by decide)
      | exact absurd (hsub 128 (by decide)) (by decide)
      | exact absurd (hsub 256 (by decide)) (by decide)
      | exact absurd (hsub 32768 (by decide)) (by decide)
      | exact absurd (hsub 65536 (by decide)) (by decide)
      | exact absurd (hsub 2147483648 (by decide)) (by decide)
      | exact absurd (hsub 4294967296 (by decide)) (by decide)
      | exact absurd (hsub 9223372036854775808 (by decide)) (by decide)
      | exact absurd (hsub 18446744073709551616 (by decide)) (by decide)

/-- **C2, counterexample.** At `T1 = UInt(Inf)`, `T2 = Int(Inf)` the claimed
equivalence fails: every nonnegative integer is an integer (so the value
sets are included), but the declared order has
`UInt(Inf) ≤ Int(Inf) = false` (the `UInt ≤ Int` arm requires a *strict*
size inequality). -/
theorem claim_C2_counterexample :
    ¬(IntTy.le (.uint .inf) (.int .inf) = true ↔
        ∀ n : Int, IntTy.contains (.uint .inf) n = true →
          IntTy.contains (.int .inf) n = true) := by
  intro h
  exact absurd (h.mpr fun n _ => rfl) (by decide)

/-- **C2, amended.** For every pair of integral types other than
`(UInt(Inf), Int(Inf))`, `T1 ≤ T2` under the `PartialOrd` instance holds
iff every `n` contained in `T1` is contained in `T2`; at the excluded pair
inclusion holds but the order denies it. -/
theorem claim_C2_amended (T1 T2 : IntTy)
    (hne : ¬(T1 = .uint .inf ∧ T2 = .int .inf)) :
    IntTy.le T1 T2 = true ↔
      ∀ n : Int, IntTy.contains T1 n = true → IntTy.contains T2 n = true :=
  ⟨fun hle n h1 => intTy_le_subset T1 T2 n hle h1, intTy_subset_le T1 T2 hne⟩

/-- Witness for C2 (amended): the pair `(i8, i16)`. -/
theorem claim_C2_witness :
    (¬(IntTy.int .s8 = .uint .inf ∧ IntTy.int .s16 = .int .inf)) ∧
      (IntTy.le (.int .s8) (.int .s16) = true ↔
        ∀ n : Int, IntTy.contains (.int .s8) n = true →
          IntTy.contains (.int .s16) n = true) :=
  ⟨by decide, claim_C2_amended (.int .s8) (.int .s16) (by decide)⟩

/-! ## Claim C9: `RequestHandler::finish` on success values -/

/-- **C9.** Finishing with a success value removes the request's id from the
open-request map (so the id is no longer present afterwards) and sends a
response for that id with `error = None`; a cancelled request goes through
`handle`, which finishes with the empty value `()`, whose result is JSON
`null`. -/
theorem claim_C9_finish (reqs : OpenRequests) (id : RequestId) (v : SJson) :
    (RequestHandler.finish reqs id (.ok v)).2 = ⟨id, some v, none⟩ ∧
    id ∉ ((RequestHandler.finish reqs id (.ok v)).1.map Prod.fst) ∧
    (RequestHandler.handle reqs id).2 = ⟨id, some SJson.null, none⟩ ∧
    (RequestHandler.handle reqs id).1 = (RequestHandler.finish reqs id (.ok SJson.null)).1 := by
  refine ⟨rfl, ?_, rfl, rfl⟩
  intro hmem
  rcases List.mem_map.1 hmem with ⟨e, he, hfst⟩
  have hp := List.of_mem_filter he
  rw [decide_eq_true_eq] at hp
  exact hp hfst

/-! ## Claim C1: `Contexts::extend` -/

/-- **C1, failing input.** Extending the default (root-only) `Contexts` at
the root id: here `i = L = 0`, so the claim requires the returned id to be
`(buf, L+1) = (root, 1)`.  The code appends the variable to the root buffer
but returns the *incoming* id `(root, 0)` unchanged (`unshare` only rewrites
`ctx` in its fresh-buffer branch), so the returned context excludes the
variable just pushed: its reverse iteration is empty. -/
theorem claim_C1_extend_bug :
    (Contexts.dflt.extend CtxId.ROOT ⟨1⟩ (none, TyKind.unit)).1.bufs =
      [⟨CtxId.ROOT, [(⟨1⟩, (none, TyKind.unit))]⟩] ∧
    (Contexts.dflt.extend CtxId.ROOT ⟨1⟩ (none, TyKind.unit)).2 = CtxId.ROOT ∧
    (Contexts.dflt.extend CtxId.ROOT ⟨1⟩ (none, TyKind.unit)).2 ≠ ⟨⟨0⟩, 1⟩ ∧
    (Contexts.dflt.extend CtxId.ROOT ⟨1⟩ (none, TyKind.unit)).1.rev_iter
      (Contexts.dflt.extend CtxId.ROOT ⟨1⟩ (none, TyKind.unit)).2 = [] :=
  ⟨rfl, rfl, by decide, rfl⟩

/-- The `i < L` branch of `Contexts::extend` does behave as claim C1 states:
a fresh buffer with parent `(buf, i)` holding the single new variable is
pushed, and the returned id is `(fresh, 1)`. -/
theorem extend_branching_case (c : Contexts) (id : CtxId) (var : VarId) (ty : ExprTy)
    (hne : (c.buf id.buf.n).vars.length ≠ id.i) :
    c.extend id var ty =
      (⟨c.bufs ++ [{ parent := id, vars := [(var, ty)] }]⟩, ⟨⟨c.bufs.length⟩, 1⟩) := by
  unfold Contexts.extend
  rw [if_neg hne]

/-! ## Claim C8: reverse context iteration -/

/-- Unfolding `revIterAux` at positive fuel. -/
theorem revIterAux_succ (c : Contexts) (fuel : Nat) (id : CtxId) :
    c.revIterAux (fuel + 1) id =
      ((c.buf id.buf.n).vars.take id.i).reverse ++
        (if id.buf.n = 0 then [] else c.revIterAux fuel (c.buf id.buf.n).parent) := rfl

/-- Unfolding `ctxVars`. -/
theorem ctxVars_eq (c : Contexts) (b i : Nat) :
    c.ctxVars b i =
      (if _h : (c.buf b).parent.buf.n < b then
        c.ctxVars (c.buf b).parent.buf.n (c.buf b).parent.i
      else []) ++ (c.buf b).vars.take i := by
  conv_lhs => unfold Contexts.ctxVars

/-- On a well-formed context collection, `revIterAux` is independent of the
fuel as soon as the fuel exceeds the starting buffer index: the parent
chain strictly descends, so the iteration always terminates. -/
theorem revIterAux_fuel_congr (c : Contexts) (hwf : c.WF) :
    ∀ b (id : CtxId), id.buf.n ≤ b → id.buf.n < c.bufs.length →
      ∀ f1 f2, id.buf.n < f1 → id.buf.n < f2 →
        c.revIterAux f1 id = c.revIterAux f2 id := by
  intro b
  induction b with
  | zero =>
    intro id hle hlen f1 f2 h1 h2
    obtain ⟨k1, rfl⟩ : ∃ k, f1 = k + 1 := ⟨f1 - 1, by omega⟩
    obtain ⟨k2, rfl⟩ : ∃ k, f2 = k + 1 := ⟨f2 - 1, by omega⟩
    have hb : id.buf.n = 0 := by omega
    rw [revIterAux_succ, revIterAux_succ, if_pos hb, if_pos hb]
  | succ m ih =>
    intro id hle hlen f1 f2 h1 h2
    obtain ⟨k1, rfl⟩ : ∃ k, f1 = k + 1 := ⟨f1 - 1, by omega⟩
    obtain ⟨k2, rfl⟩ : ∃ k, f2 = k + 1 := ⟨f2 - 1, by omega⟩
    rw [revIterAux_succ, revIterAux_succ]
    congr 1
    by_cases hb : id.buf.n = 0
    · rw [if_pos hb, if_pos hb]
    · rw [if_neg hb, if_neg hb]
      have hplt : (c.buf id.buf.n).parent.buf.n < id.buf.n := (hwf id.buf.n hlen).1 hb
      exact ih (c.buf id.buf.n).parent (by omega) (by omega) k1 k2 (by omega) (by omega)

/-- On a well-formed context collection, the iterator output (with the fuel
`rev_iter` supplies) is the reverse of the logical context. -/
theorem revIterAux_eq_reverse (c : Contexts) (hwf : c.WF) :
    ∀ b (id : CtxId), id.buf.n ≤ b → id.buf.n < c.bufs.length →
      c.revIterAux (id.buf.n + 1) id = (c.ctxVars id.buf.n id.i).reverse := by
  intro b
  induction b with
  | zero =>
    intro id hle hlen
    have hb : id.buf.n = 0 := by omega
    rw [revIterAux_succ, if_pos hb, ctxVars_eq, hb]
    rw [dif_neg (by omega), List.nil_append, List.append_nil]
  | succ m ih =>
    intro id hle hlen
    by_cases hb : id.buf.n = 0
    · rw [revIterAux_succ, if_pos hb, ctxVars_eq, hb]
      rw [dif_neg (by omega), List.nil_append, List.append_nil]
    · have hplt : (c.buf id.buf.n).parent.buf.n < id.buf.n := (hwf id.buf.n hlen).1 hb
      rw [revIterAux_succ, if_neg hb]
      rw [revIterAux_fuel_congr c hwf m (c.buf id.buf.n).parent (by omega) (by omega)
        id.buf.n ((c.buf id.buf.n).parent.buf.n + 1) (by omega) (by omega)]
      rw [ih (c.buf id.buf.n).parent (by omega) (by omega)]
      conv_rhs => rw [ctxVars_eq c id.buf.n id.i]
      rw [dif_pos hplt, List.reverse_append]

/-- **C8.** On a well-formed context collection (parent buffer indices
strictly decrease, stored indices are within bounds) and a valid id,
`rev_iter` terminates — its output does not depend on the fuel bound once
the fuel exceeds the buffer index — and yields exactly the logical context
most-recent-first: the current buffer's first `i` entries back to front,
then, recursively, the parent context's entries, stopping at the root. -/
theorem claim_C8_rev_iter (c : Contexts) (id : CtxId) (hwf : c.WF)
    (hbuf : id.buf.n < c.bufs.length)
    (hidx : id.i ≤ (c.buf id.buf.n).vars.length) :
    c.rev_iter id = (c.ctxVars id.buf.n id.i).reverse ∧
      ∀ fuel, id.buf.n < fuel → c.revIterAux fuel id = c.rev_iter id := by
  refine ⟨revIterAux_eq_reverse c hwf id.buf.n id le_rfl hbuf, fun fuel hf => ?_⟩
  exact revIterAux_fuel_congr c hwf id.buf.n id le_rfl hbuf fuel (id.buf.n + 1) hf
    (by omega)

/-- A two-buffer well-formed context collection: the root holds variables 1
and 2, a second buffer branches from `(root, 1)` and holds variable 3. -/
def wfCtxs : Contexts :=
  ⟨[⟨CtxId.ROOT, [(⟨1⟩, (none, TyKind.unit)), (⟨2⟩, (none, TyKind.bool))]⟩,
    ⟨⟨⟨0⟩, 1⟩, [(⟨3⟩, (none, TyKind.unit))]⟩]⟩

/-- Witness for C8: the two-buffer example, queried at `(1, 1)`. -/
theorem claim_C8_witness :
    wfCtxs.WF ∧ 1 < wfCtxs.bufs.length ∧ 1 ≤ (wfCtxs.buf 1).vars.length ∧
      wfCtxs.rev_iter ⟨⟨1⟩, 1⟩ = (wfCtxs.ctxVars 1 1).reverse :=
  ⟨by decide, by decide, by decide,
    (claim_C8_rev_iter wfCtxs ⟨⟨1⟩, 1⟩ (by decide) (by decide) (by decide)).1⟩

/-- A two-variable root-only context used as a concrete example. -/
def exampleCtxs : Contexts :=
  ⟨[⟨CtxId.ROOT, [(⟨1⟩, (none, TyKind.unit)), (⟨2⟩, (none, TyKind.bool))]⟩]⟩

/-! ## VFS map and `dirty`-traversal lemmas -/

/-- The part of a virtual file `VFS::dirty` never changes: the saved flag,
the text, and the downstream set (`dirty` only rewrites `parsed`). -/
def VirtualFile.skel (f : VirtualFile) : Bool × String × List Path :=
  (f.saved, f.text, f.downstream)

theorem VFS.find_update (v : VFS) (p x : Path) (f : VirtualFile) :
    (v.update p f).find x =
      if x = p then (v.find p).map fun _ => f else v.find x := by
  induction v with
  | nil => simp [VFS.update, VFS.find]
  | cons e t ih =>
    simp only [VFS.update, List.map_cons, VFS.find] at ih ⊢
    split_ifs with h1 h2 <;> simp_all <;> split_ifs <;> simp_all

theorem VFS.find_insert (v : VFS) (p x : Path) (f : VirtualFile) :
    (v.insert p f).find x = if x = p then some f else v.find x := by
  show (if p = x then some f else v.find x) = _
  by_cases hx : x = p <;> simp [hx]
  · intro h; exact absurd h.symm hx

theorem VFS.find_erase (v : VFS) (p x : Path) :
    (v.erase p).find x = if x = p then none else v.find x := by
  induction v with
  | nil => simp [VFS.erase, VFS.find]
  | cons e t ih =>
    simp only [VFS.erase, List.filter_cons] at ih ⊢
    split_ifs with h1 h2 <;> simp_all [VFS.find] <;> split_ifs <;> simp_all

/-- Unfolding `VFS.dirty` at positive fuel. -/
theorem dirty_succ (fuel : Nat) (v : VFS) (q : List Job) (p : Path) :
    VFS.dirty (fuel + 1) v q p =
      match v.find p with
      | none => (v, q ++ [Job.depChange p])
      | some file =>
        file.downstream.foldl (fun vq dep => VFS.dirty fuel vq.1 vq.2 dep)
          (v.update p { file with parsed := FileCache.dirtyFlip file.parsed },
            q ++ [Job.depChange p]) := rfl

/-- `VFS::dirty` preserves every file's saved flag, text and downstream set
(it only flips `parsed` caches). -/
theorem dirty_skel (fuel : Nat) :
    ∀ (v : VFS) (q : List Job) (p x : Path),
      ((VFS.dirty fuel v q p).1.find x).map VirtualFile.skel =
        (v.find x).map VirtualFile.skel := by
  induction fuel with
  | zero => intro v q p x; rfl
  | succ n ih =>
    have fold_skel : ∀ (ds : List Path) (vq : VFS × List Job) (x : Path),
        (((ds.foldl (fun vq dep => VFS.dirty n vq.1 vq.2 dep) vq)).1.find x).map
            VirtualFile.skel =
          (vq.1.find x).map VirtualFile.skel := by
      intro ds
      induction ds with
      | nil => intro vq x; rfl
      | cons d t iht => intro vq x; rw [List.foldl_cons, iht, ih]
    intro v q p x
    rw [dirty_succ]
    cases hf : v.find p with
    | none => rfl
    | some file =>
      show (((file.downstream.foldl (fun vq dep => VFS.dirty n vq.1 vq.2 dep)
          (v.update p { file with parsed := FileCache.dirtyFlip file.parsed },
            q ++ [Job.depChange p]))).1.find x).map VirtualFile.skel =
        (v.find x).map VirtualFile.skel
      rw [fold_skel]
      show ((VFS.update v p _).find x).map VirtualFile.skel = _
      rw [VFS.find_update]
      by_cases hx : x = p
      · subst hx; rw [if_pos rfl, hf]; rfl
      · rw [if_neg hx]

/-- The paths `VFS::dirty` visits, computed from the dependency graph
alone: the starting path, then (in order) the recursive traversal of each
downstream path. -/
def VFS.dirtyPaths (v : VFS) : Nat → Path → List Path
  | 0, _ => []
  | fuel + 1, p =>
    p ::
      (match v.find p with
      | none => []
      | some file =>
        file.downstream.foldl (fun acc d => acc ++ v.dirtyPaths fuel d) [])

/-- Unfolding `dirtyPaths` at positive fuel. -/
theorem dirtyPaths_succ (v : VFS) (n : Nat) (p : Path) :
    v.dirtyPaths (n + 1) p =
      p ::
        (match v.find p with
        | none => []
        | some file =>
          file.downstream.foldl (fun acc d => acc ++ v.dirtyPaths n d) []) := rfl

/-- `dirtyPaths` only looks at the skeleton of the map, so two maps with
the same skeletons produce the same traversal. -/
theorem dirtyPaths_congr (v v' : VFS)
    (h : ∀ x, (v.find x).map VirtualFile.skel = (v'.find x).map VirtualFile.skel) :
    ∀ fuel p, v.dirtyPaths fuel p = v'.dirtyPaths fuel p := by
  intro fuel
  induction fuel with
  | zero => intro p; rfl
  | succ n ih =>
    intro p
    have hx := h p
    rw [dirtyPaths_succ, dirtyPaths_succ]
    cases hv : v.find p with
    | none =>
      cases hv' : v'.find p with
      | none => rfl
      | some f' => rw [hv, hv'] at hx; simp at hx
    | some f =>
      cases hv' : v'.find p with
      | none => rw [hv, hv'] at hx; simp at hx
      | some f' =>
        rw [hv, hv'] at hx
        simp only [Option.map_some', Option.some.injEq] at hx
        have hds : f.downstream = f'.downstream := congrArg (fun t => t.2.2) hx
        congr 1
        show f.downstream.foldl (fun acc d => acc ++ v.dirtyPaths n d) [] =
          f'.downstream.foldl (fun acc d => acc ++ v'.dirtyPaths n d) []
        rw [hds]
        have key : ∀ (l a : List Path),
            l.foldl (fun acc d => acc ++ v.dirtyPaths n d) a =
              l.foldl (fun acc d => acc ++ v'.dirtyPaths n d) a := by
          intro l
          induction l with
          | nil => intro a; rfl
          | cons d t iht =>
            intro a
            rw [List.foldl_cons, List.foldl_cons, ih d]
            exact iht _
        exact key _ _

/-- `foldl` over list-append, started from an arbitrary accumulator, is the
accumulator followed by the fold started from nil. -/
theorem foldl_append_shift (g : Path → List Path) :
    ∀ (l : List Path) (a : List Path),
      l.foldl (fun acc d => acc ++ g d) a =
        a ++ l.foldl (fun acc d => acc ++ g d) [] := by
  intro l
  induction l with
  | nil => intro a; simp
  | cons d t ih =>
    intro a
    rw [List.foldl_cons, List.foldl_cons, ih (a ++ g d), ih ([] ++ g d)]
    simp [List.append_assoc]

/-- The jobs `VFS::dirty` enqueues are exactly `DepChange` jobs for the
paths of its traversal, appended to the incoming queue. -/
theorem dirty_queue (fuel : Nat) :
    ∀ (v : VFS) (q : List Job) (p : Path),
      (VFS.dirty fuel v q p).2 = q ++ (v.dirtyPaths fuel p).map Job.depChange := by
  induction fuel with
  | zero => intro v q p; simp [VFS.dirty, VFS.dirtyPaths]
  | succ n ih =>
    have fold_queue : ∀ (v0 : VFS) (ds : List Path) (vq : VFS × List Job),
        (∀ x, (vq.1.find x).map VirtualFile.skel = (v0.find x).map VirtualFile.skel) →
        (ds.foldl (fun vq dep => VFS.dirty n vq.1 vq.2 dep) vq).2 =
          vq.2 ++
            (ds.foldl (fun acc d => acc ++ v0.dirtyPaths n d) []).map Job.depChange := by
      intro v0 ds
      induction ds with
      | nil => intro vq hsk; simp
      | cons d t iht =>
        intro vq hsk
        rw [List.foldl_cons, List.foldl_cons]
        have h2 : ∀ x, ((VFS.dirty n vq.1 vq.2 d).1.find x).map VirtualFile.skel =
            (v0.find x).map VirtualFile.skel :=
          fun x => (dirty_skel n vq.1 vq.2 d x).trans (hsk x)
        rw [iht _ h2, ih, dirtyPaths_congr vq.1 v0 hsk n d,
          foldl_append_shift (fun d => v0.dirtyPaths n d) t ([] ++ v0.dirtyPaths n d)]
        simp [List.append_assoc]
    intro v q p
    rw [dirty_succ, dirtyPaths_succ]
    cases hf : v.find p with
    | none => rfl
    | some file =>
      show ((file.downstream.foldl (fun vq dep => VFS.dirty n vq.1 vq.2 dep)
          (v.update p { file with parsed := FileCache.dirtyFlip file.parsed },
            q ++ [Job.depChange p]))).2 =
        q ++ (p :: file.downstream.foldl
          (fun acc d => acc ++ v.dirtyPaths n d) []).map Job.depChange
      have hsk : ∀ x,
          ((v.update p { file with parsed := FileCache.dirtyFlip file.parsed }).find
            x).map VirtualFile.skel = (v.find x).map VirtualFile.skel := by
        intro x
        rw [VFS.find_update]
        by_cases hx : x = p
        · subst hx; rw [if_pos rfl, hf]; rfl
        · rw [if_neg hx]
      rw [fold_queue v _ _ hsk]
      simp [List.append_assoc]

/-! ## Claim C4: job-queue deduplication -/

/-- The `retain` predicate of `Jobs::extend`, rewritten as path
non-membership. -/
theorem all_path_ne_iff (new : List Job) (p : Path) :
    (new.all fun njob => decide (njob.path ≠ p)) = true ↔ p ∉ new.map Job.path := by
  rw [List.all_eq_true]
  constructor
  · intro h hmem
    rcases List.mem_map.1 hmem with ⟨j, hj, hp⟩
    exact (of_decide_eq_true (h j hj)) hp
  · intro h j hj
    rw [decide_eq_true_eq]
    intro hp
    exact h (List.mem_map.2 ⟨j, hj, hp⟩)

/-- The filter `Jobs::extend` performs keeps exactly the pending jobs whose
path does not occur in the new batch. -/
theorem extend_filter_eq (jobs new : List Job) :
    (jobs.filter fun job => new.all fun njob => decide (njob.path ≠ job.path)) =
      jobs.filter fun job => decide (job.path ∉ new.map Job.path) := by
  apply List.filter_congr
  intro j _
  cases h : (new.all fun njob => decide (njob.path ≠ j.path)) with
  | true =>
    have := (all_path_ne_iff new j.path).1 h
    simp [this]
  | false =>
    by_cases hmem : j.path ∈ new.map Job.path
    · simp [hmem]
    · have hall := (all_path_ne_iff new j.path).2 hmem
      rw [h] at hall
      exact absurd hall (by simp)

/-- The dependency graph used for the C4 counterexample: `X` has downstream
files `B` and `C` (both depend on `X`), and each of `B`, `C` has downstream
file `D` (a diamond). -/
def cexVfs : VFS :=
  [("X", ⟨true, "x", none, ["B", "C"]⟩),
   ("B", ⟨true, "b", none, ["D"]⟩),
   ("C", ⟨true, "c", none, ["D"]⟩),
   ("D", ⟨true, "d", none, []⟩)]

/-- **C4, counterexample.**  A `didOpen` of the already-present path `X` in
the diamond graph produces (via the recursive `VFS::dirty` traversal) the
batch `[Elaborate X, DepChange B, DepChange D, DepChange C, DepChange D]`;
`Jobs::extend` of that batch onto the empty (non-stopped) queue leaves two
pending jobs with path `D`: the claimed no-two-jobs-share-a-path invariant
fails on batches the server actually produces. -/
theorem claim_C4_counterexample :
    ¬(((Jobs.extend (some [])
        (VFS.open_virt 4 cexVfs [] "X" "t").2.1).getD []).map Job.path).Nodup := by
  decide

/-- **C4, amended.**  After `Jobs::extend(new)` on a non-stopped queue, the
pending jobs whose path occurs in the batch have been dropped and the batch
is appended; *provided* that the prior queue's paths and the batch's paths
are each duplicate-free, no two pending jobs share a path afterwards.  The
unconditional claim is false (see the counterexample): a batch built by the
recursive `VFS::dirty` traversal of a diamond-shaped dependency graph
repeats a path, and `extend` keeps both copies. -/
theorem claim_C4_amended (jobs new : List Job)
    (h1 : (jobs.map Job.path).Nodup) (h2 : (new.map Job.path).Nodup) :
    ∃ l, Jobs.extend (some jobs) new = some l ∧
      l = (jobs.filter fun job => decide (job.path ∉ new.map Job.path)) ++ new ∧
      (l.map Job.path).Nodup := by
  have key : ∀ l, l = (jobs.filter fun job =>
        decide (job.path ∉ new.map Job.path)) ++ new → (l.map Job.path).Nodup := by
    intro l hl
    subst hl
    rw [List.map_append]
    refine List.Nodup.append ?_ h2 ?_
    · exact h1.sublist ((List.filter_sublist jobs).map Job.path)
    · intro x hx1 hx2
      rcases List.mem_map.1 hx1 with ⟨j, hj, rfl⟩
      have hkeep := List.of_mem_filter hj
      rw [decide_eq_true_eq] at hkeep
      exact hkeep hx2
  by_cases hnew : new.isEmpty
  · have hn : new = [] := by
      cases new with
      | nil => rfl
      | cons a t => simp [List.isEmpty] at hnew
    subst hn
    refine ⟨jobs, by simp [Jobs.extend], ?_, by simpa using h1⟩
    simp
  · refine ⟨_, ?_, rfl, key _ rfl⟩
    show Jobs.extend (some jobs) new = _
    unfold Jobs.extend
    rw [if_neg (by simp [hnew])]
    show some ((jobs.filter fun job =>
        new.all fun njob => decide (njob.path ≠ job.path)) ++ new) = _
    rw [extend_filter_eq]

/-! ## Claim C5: `VFS::open_virt` -/

/-- Unfolding `VFS.open_virt`. -/
theorem open_virt_eq (fuel : Nat) (v : VFS) (queue : List Job) (p : Path)
    (t : String) :
    VFS.open_virt fuel v queue p t =
      match v.find p with
      | some old =>
        ((old.downstream.foldl (fun vq dep => VFS.dirty fuel vq.1 vq.2 dep)
            (v, queue ++ [Job.elaborate p ⟨0, 0⟩])).1,
          (old.downstream.foldl (fun vq dep => VFS.dirty fuel vq.1 vq.2 dep)
            (v, queue ++ [Job.elaborate p ⟨0, 0⟩])).2,
          VirtualFile.new t)
      | none =>
        (v.insert p (VirtualFile.new t), queue ++ [Job.elaborate p ⟨0, 0⟩],
          VirtualFile.new t) := by
  cases hf : v.find p <;> simp [VFS.open_virt, hf]

/-- A `dirty` fold over a list of paths preserves every file's skeleton. -/
theorem dirtyFold_skel (n : Nat) (ds : List Path) :
    ∀ (vq : VFS × List Job) (x : Path),
      ((ds.foldl (fun vq dep => VFS.dirty n vq.1 vq.2 dep) vq).1.find x).map
          VirtualFile.skel =
        (vq.1.find x).map VirtualFile.skel := by
  induction ds with
  | nil => intro vq x; rfl
  | cons d t iht => intro vq x; rw [List.foldl_cons, iht, dirty_skel]

/-- A `dirty` fold over a list of paths appends exactly the `DepChange`
jobs of the concatenated traversals (computed against any map with the
same skeletons). -/
theorem dirtyFold_queue (n : Nat) (v0 : VFS) (ds : List Path) :
    ∀ (vq : VFS × List Job),
      (∀ x, (vq.1.find x).map VirtualFile.skel = (v0.find x).map VirtualFile.skel) →
      (ds.foldl (fun vq dep => VFS.dirty n vq.1 vq.2 dep) vq).2 =
        vq.2 ++
          (ds.foldl (fun acc d => acc ++ v0.dirtyPaths n d) []).map Job.depChange := by
  induction ds with
  | nil => intro vq hsk; simp
  | cons d t iht =>
    intro vq hsk
    rw [List.foldl_cons, List.foldl_cons]
    have h2 : ∀ x, ((VFS.dirty n vq.1 vq.2 d).1.find x).map VirtualFile.skel =
        (v0.find x).map VirtualFile.skel :=
      fun x => (dirty_skel n vq.1 vq.2 d x).trans (hsk x)
    rw [iht _ h2, dirty_queue n vq.1 vq.2 d, dirtyPaths_congr vq.1 v0 hsk n d,
      foldl_append_shift (fun d => v0.dirtyPaths n d) t ([] ++ v0.dirtyPaths n d)]
    simp [List.append_assoc]

/-- Every element contributed by a member of the list is in the
append-fold. -/
theorem mem_foldl_append (g : Path → List Path) :
    ∀ (l a : List Path) (d : Path), d ∈ l → ∀ y ∈ g d,
      y ∈ l.foldl (fun acc d => acc ++ g d) a := by
  intro l
  induction l with
  | nil => intro a d hd; cases hd
  | cons e t ih =>
    intro a d hd y hy
    rw [List.foldl_cons]
    rcases List.mem_cons.1 hd with rfl | hd
    · rw [foldl_append_shift]
      exact List.mem_append.2 (Or.inl (List.mem_append.2 (Or.inr hy)))
    · exact ih (a ++ g e) d hd y hy

/-- **C5, counterexample.**  Opening the already-present path `a` (stored
text `"old"`, no downstream files) with new text `"new"` leaves the map
completely unchanged: the freshly built file holding `"new"` is returned
but never stored, refuting the claim that the stored virtual file is
replaced by one holding the new text. -/
theorem claim_C5_counterexample :
    (VFS.open_virt 1 [("a", ⟨true, "old", none, []⟩)] [] "a" "new").1 =
      [("a", ⟨true, "old", none, []⟩)] ∧
    ((VFS.open_virt 1 [("a", ⟨true, "old", none, []⟩)] [] "a" "new").1.find "a").map
        VirtualFile.text = some "old" ∧
    "old" ≠ "new" ∧
    (VFS.open_virt 1 [("a", ⟨true, "old", none, []⟩)] [] "a" "new").2.2 =
      VirtualFile.new "new" := by
  refine ⟨by decide, by decide, by decide, by decide⟩

/-- **C5, amended.**  `open_virt` enqueues an `Elaborate` job for the path
at position `(0,0)` and builds (and returns) a fresh virtual file holding
`t`; if the path was absent the fresh file is inserted; if the path was
already present the stored file is *kept* — no file's saved flag, text or
downstream set changes — and the downstream files of the stored entry are
dirtied recursively: the queue gains exactly the `DepChange` jobs of the
recursive traversal, in particular one for each direct downstream file. -/
theorem claim_C5_amended (fuel : Nat) (v : VFS) (queue : List Job) (p : Path)
    (t : String) :
    (VFS.open_virt fuel v queue p t).2.2 = VirtualFile.new t ∧
    (v.find p = none →
      (VFS.open_virt fuel v queue p t).1 = v.insert p (VirtualFile.new t) ∧
      (VFS.open_virt fuel v queue p t).2.1 = queue ++ [Job.elaborate p ⟨0, 0⟩]) ∧
    (∀ old, v.find p = some old →
      (∀ x, ((VFS.open_virt fuel v queue p t).1.find x).map VirtualFile.skel =
        (v.find x).map VirtualFile.skel) ∧
      (VFS.open_virt fuel v queue p t).2.1 =
        queue ++ [Job.elaborate p ⟨0, 0⟩] ++
          (old.downstream.foldl (fun acc d => acc ++ v.dirtyPaths fuel d) []).map
            Job.depChange ∧
      (0 < fuel → ∀ d ∈ old.downstream,
        Job.depChange d ∈ (VFS.open_virt fuel v queue p t).2.1)) := by
  rw [open_virt_eq]
  cases hf : v.find p with
  | none =>
    refine ⟨rfl, fun _ => ⟨rfl, rfl⟩, fun old hold => ?_⟩
    simp at hold
  | some old0 =>
    refine ⟨rfl, fun hnone => ?_, fun old hold => ?_⟩
    · simp at hnone
    · simp only [Option.some.injEq] at hold
      subst hold
      refine ⟨fun x => dirtyFold_skel fuel old0.downstream
        (v, queue ++ [Job.elaborate p ⟨0, 0⟩]) x, ?_, ?_⟩
      · exact dirtyFold_queue fuel v old0.downstream
          (v, queue ++ [Job.elaborate p ⟨0, 0⟩]) (fun x => rfl)
      · intro hfuel d hd
        show Job.depChange d ∈
          (old0.downstream.foldl (fun vq dep => VFS.dirty fuel vq.1 vq.2 dep)
            (v, queue ++ [Job.elaborate p ⟨0, 0⟩])).2
        rw [dirtyFold_queue fuel v old0.downstream
          (v, queue ++ [Job.elaborate p ⟨0, 0⟩]) (fun x => rfl)]
        refine List.mem_append.2 (Or.inr ?_)
        refine List.mem_map.2 ⟨d, ?_, rfl⟩
        obtain ⟨m, rfl⟩ : ∃ m, fuel = m + 1 := ⟨fuel - 1, by omega⟩
        refine mem_foldl_append (fun d => v.dirtyPaths (m + 1) d)
          old0.downstream [] d hd d ?_
        show d ∈ v.dirtyPaths (m + 1) d
        rw [dirtyPaths_succ]
        exact List.mem_cons_self _ _

/-- The VFS used in the C5 witness: `a` (text `"old"`) has downstream `b`. -/
def wVfs5 : VFS :=
  [("a", ⟨true, "old", none, ["b"]⟩), ("b", ⟨true, "B", none, []⟩)]

/-- Witness for C5 (amended): re-opening `a` keeps its text and enqueues
`Elaborate a` then `DepChange b`. -/
theorem claim_C5_witness :
    wVfs5.find "a" = some ⟨true, "old", none, ["b"]⟩ ∧
    (VFS.open_virt 1 wVfs5 [] "a" "t").2.1 =
      [] ++ [Job.elaborate "a" ⟨0, 0⟩] ++
        ((⟨true, "old", none, ["b"]⟩ : VirtualFile).downstream.foldl
          (fun acc d => acc ++ wVfs5.dirtyPaths 1 d) []).map Job.depChange :=
  ⟨by decide,
    ((claim_C5_amended 1 wVfs5 [] "a" "t").2.2 ⟨true, "old", none, ["b"]⟩
      (by decide)).2.1⟩

/-! ## Claim C10: the saved flag is invariantly true -/

/-- Unfolding `VFS.didChange`. -/
theorem didChange_eq (v : VFS) (p : Path) (t : String) :
    VFS.didChange v p t =
      match v.find p with
      | none => v
      | some file => v.update p { file with saved := true, text := t } := rfl

/-- Unfolding `VFS.close`. -/
theorem close_eq (fuel : Nat) (v : VFS) (queue : List Job) (p : Path) :
    VFS.close fuel v queue p =
      match v.find p with
      | none => (v, queue)
      | some file =>
        if file.saved then (v.erase p, queue)
        else
          file.downstream.foldl (fun vq dep => VFS.dirty fuel vq.1 vq.2 dep)
            (v.erase p, queue) := rfl

/-- Unfolding `VFS.set_downstream`. -/
theorem set_downstream_eq (v : VFS) (fr dst : Path) (val : Bool) :
    VFS.set_downstream v fr dst val =
      match v.find fr with
      | none => v
      | some file =>
        v.update fr
          { file with
            downstream :=
              if val then
                if dst ∈ file.downstream then file.downstream
                else file.downstream ++ [dst]
              else file.downstream.filter fun d => decide (d ≠ dst) } := rfl

/-- Unfolding `VFS.setParsed`. -/
theorem setParsed_eq (v : VFS) (p : Path) (pc : Option FileCache) :
    VFS.setParsed v p pc =
      match v.find p with
      | none => v
      | some file => v.update p { file with parsed := pc } := rfl

/-- Skeleton-preserving transformations preserve the all-saved property. -/
theorem allSaved_of_skel (v v' : VFS)
    (h : ∀ x, (v'.find x).map VirtualFile.skel = (v.find x).map VirtualFile.skel)
    (hs : ∀ p f, v.find p = some f → f.saved = true) :
    ∀ p f, v'.find p = some f → f.saved = true := by
  intro p f hp
  have hsk := h p
  rw [hp] at hsk
  cases hg : v.find p with
  | none => rw [hg] at hsk; simp at hsk
  | some g =>
    rw [hg] at hsk
    simp only [Option.map_some', Option.some.injEq] at hsk
    have hsv : f.saved = g.saved := congrArg (fun s => s.1) hsk
    rw [hsv]
    exact hs p g hg

/-- **C10.** In every VFS state reachable through the server's operations,
the saved flag of every stored file is `true` (`VirtualFile::new` starts it
`true` and the `didChange` handler sets it to `true`); consequently
`VFS::close` never enqueues `DepChange` jobs: the unsaved branch that would
dirty the downstream files is dead. -/
theorem claim_C10_saved_invariant :
    (∀ t, (VirtualFile.new t).saved = true) ∧
    ∀ v, Reachable v →
      (∀ p f, v.find p = some f → f.saved = true) ∧
      (∀ fuel queue p, (VFS.close fuel v queue p).2 = queue) := by
  refine ⟨fun t => rfl, fun v hv => ?_⟩
  have hsaved : ∀ p f, v.find p = some f → f.saved = true := by
    induction hv with
    | init => intro p f hp; exact absurd hp (by simp [VFS.find])
    | openVirt fuel v queue p t hv ih =>
      rw [open_virt_eq]
      cases hf : v.find p with
      | none =>
        intro x f hx
        rw [VFS.find_insert] at hx
        split_ifs at hx with hxp
        · simp only [Option.some.injEq] at hx; rw [← hx]; rfl
        · exact ih x f hx
      | some old =>
        exact allSaved_of_skel v _
          (fun y => dirtyFold_skel fuel old.downstream
            (v, queue ++ [Job.elaborate p ⟨0, 0⟩]) y) ih
    | change v p t hv ih =>
      rw [didChange_eq]
      cases hf : v.find p with
      | none => exact ih
      | some file =>
        intro x f hx
        rw [VFS.find_update] at hx
        split_ifs at hx with hxp
        · rw [hf] at hx
          simp only [Option.map_some', Option.some.injEq] at hx
          rw [← hx]
        · exact ih x f hx
    | close fuel v queue p hv ih =>
      rw [close_eq]
      cases hf : v.find p with
      | none => exact ih
      | some file =>
        have hers : ∀ x f, (v.erase p).find x = some f → f.saved = true := by
          intro x f hx
          rw [VFS.find_erase] at hx
          by_cases hxp : x = p
          · rw [if_pos hxp] at hx; exact absurd hx (by simp)
          · rw [if_neg hxp] at hx; exact ih x f hx
        show ∀ x f,
          ((if file.saved = true then (v.erase p, queue)
            else file.downstream.foldl (fun vq dep => VFS.dirty fuel vq.1 vq.2 dep)
              (v.erase p, queue)).1.find x) = some f → f.saved = true
        by_cases hsv : file.saved = true
        · rw [if_pos hsv]; exact hers
        · rw [if_neg hsv]
          exact allSaved_of_skel (v.erase p) _
            (fun y => dirtyFold_skel fuel file.downstream (v.erase p, queue) y) hers
    | setDs v fr dst val hv ih =>
      rw [set_downstream_eq]
      cases hf : v.find fr with
      | none => exact ih
      | some file =>
        intro x f hx
        rw [VFS.find_update] at hx
        by_cases hxp : x = fr
        · rw [if_pos hxp, hf] at hx
          simp only [Option.map_some', Option.some.injEq] at hx
          subst hx
          exact ih fr file hf
        · rw [if_neg hxp] at hx
          exact ih x f hx
    | setParsed v p pc hv ih =>
      rw [setParsed_eq]
      cases hf : v.find p with
      | none => exact ih
      | some file =>
        intro x f hx
        rw [VFS.find_update] at hx
        by_cases hxp : x = p
        · rw [if_pos hxp, hf] at hx
          simp only [Option.map_some', Option.some.injEq] at hx
          subst hx
          exact ih p file hf
        · rw [if_neg hxp] at hx
          exact ih x f hx
    | dirtyStep fuel v queue p hv ih =>
      exact allSaved_of_skel v _ (fun y => dirty_skel fuel v queue p y) ih
  refine ⟨hsaved, fun fuel queue p => ?_⟩
  rw [close_eq]
  cases hf : v.find p with
  | none => rfl
  | some file =>
    show (if file.saved = true then (v.erase p, queue)
      else file.downstream.foldl (fun vq dep => VFS.dirty fuel vq.1 vq.2 dep)
        (v.erase p, queue)).2 = queue
    rw [if_pos (hsaved p file hf)]

/-- Witness for C10: after opening `a` in the empty VFS, closing `a` (or
any path) enqueues nothing. -/
theorem claim_C10_witness :
    (VirtualFile.new "hello").saved = true ∧
    (VFS.close 3 (VFS.open_virt 1 [] [] "a" "hello").1 [Job.depChange "z"] "a").2 =
      [Job.depChange "z"] :=
  ⟨claim_C10_saved_invariant.1 "hello",
    (claim_C10_saved_invariant.2 _
      (Reachable.openVirt 1 [] [] "a" "hello" Reachable.init)).2 3
      [Job.depChange "z"] "a"⟩

/-- Witness for C4 (amended): replacing the pending `Elaborate` job for `a`
with a `DepChange` job for `a`. -/
theorem claim_C4_witness :
    ([Job.elaborate "a" ⟨0, 0⟩].map Job.path).Nodup ∧
    ([Job.depChange "a"].map Job.path).Nodup ∧
    ∃ l, Jobs.extend (some [Job.elaborate "a" ⟨0, 0⟩]) [Job.depChange "a"] = some l ∧
      l = ([Job.elaborate "a" ⟨0, 0⟩].filter fun job =>
          decide (job.path ∉ [Job.depChange "a"].map Job.path)) ++ [Job.depChange "a"] ∧
      (l.map Job.path).Nodup :=
  ⟨by decide, by decide, claim_C4_amended _ _ (by decide) (by decide)⟩

/-- Witness for the branching-case theorem: extending the two-variable
example context strictly inside its root buffer allocates buffer 1. -/
theorem extend_branching_witness :
    (exampleCtxs.buf 0).vars.length ≠ 1 ∧
    exampleCtxs.extend ⟨⟨0⟩, 1⟩ ⟨3⟩ (none, TyKind.unit) =
      (⟨exampleCtxs.bufs ++ [{ parent := ⟨⟨0⟩, 1⟩, vars := [(⟨3⟩, (none, TyKind.unit))] }]⟩,
        ⟨⟨exampleCtxs.bufs.length⟩, 1⟩) :=
  ⟨by decide, extend_branching_case _ _ _ _ (by decide)⟩

end MM0
